import Mathlib

/-!
Verification of the contract-analysis pipeline in src/main.py.

Strings are modelled as List Char. Python regular expressions are embedded as
deterministic matchers: every pattern used by the program is a sequence of
character classes, literal alternations and bounded quantifiers whose
backtracking is resolved deterministically, so each regex becomes a total
Lean function. Machine text is ASCII in every claim we settle, so the ASCII
character classes used below agree with Python behaviour on all inputs that
appear in theorems.
-/

namespace ContractAnalyzer

/-- Python whitespace class (the ASCII part of the regex class backslash-s):
space, tab, newline, carriage return, vertical tab, form feed. -/
def isPySpace (c : Char) : Bool :=
  c == ' ' || c == '\t' || c == '\n' || c == '\r' || c == Char.ofNat 11 || c == Char.ofNat 12

/-- Lower-casing a string, as Python str.lower does on ASCII text. -/
def lowerStr (l : List Char) : List Char := l.map Char.toLower

/-- Substring containment, the Python expression needle in hay on strings:
needle occurs contiguously somewhere in hay. -/
def isSubstr (needle : List Char) : List Char → Bool
  | [] => needle.isEmpty
  | c :: rest => needle.isPrefixOf (c :: rest) || isSubstr needle rest

/-! ### RiskEngine (src/main.py lines 97-112) -/

/-- The ordered risk tiers of the design: Low < Medium < High. -/
inductive RiskTier
  | Low
  | Medium
  | High
deriving DecidableEq

/-- Numeric rank of a tier, used to state the order Low < Medium < High. -/
def RiskTier.toNat : RiskTier → Nat
  | .Low => 0
  | .Medium => 1
  | .High => 2

/-- The fixed weighted keyword lexicon RISK_RULES of src/main.py lines 97-106,
in source order. -/
def RISK_RULES : List (List Char × Nat) :=
  [("penalty".toList, 3),
   ("indemnify".toList, 4),
   ("terminate at any time".toList, 4),
   ("without notice".toList, 3),
   ("non compete".toList, 4),
   ("auto renew".toList, 3),
   ("arbitration".toList, 2),
   ("jurisdiction".toList, 2)]

/-- The score computed by risk_analysis (line 109):
sum of the weights of the rules whose keyword occurs in text.lower(),
each rule contributing its weight once (Python: k in text.lower()). -/
def riskScore (text : List Char) : Nat :=
  (RISK_RULES.map (fun r => if isSubstr r.1 (lowerStr text) = true then r.2 else 0)).sum

/-- risk_analysis of src/main.py lines 108-112: threshold the score at 7 and 4. -/
def risk_analysis (text : List Char) : RiskTier :=
  if 7 ≤ riskScore text then RiskTier.High
  else if 4 ≤ riskScore text then RiskTier.Medium
  else RiskTier.Low

/-- Aggregation of per-clause tiers into the overall document tier,
src/main.py line 224: High if any High, else Medium if any Medium, else Low. -/
def overall (risks : List RiskTier) : RiskTier :=
  if RiskTier.High ∈ risks then RiskTier.High
  else if RiskTier.Medium ∈ risks then RiskTier.Medium
  else RiskTier.Low

/-! ### ContractClassifier (src/main.py lines 59-70) -/

/-- Keyword list of the Employment Agreement rule (line 62). -/
def kwEmployment : List (List Char) :=
  ["employee".toList, "employer".toList, "salary".toList, "termination".toList]

/-- Keyword list of the Lease Agreement rule (line 63). -/
def kwLease : List (List Char) := ["rent".toList, "tenant".toList, "lease".toList]

/-- Keyword list of the Vendor / Service Agreement rule (line 64). -/
def kwVendor : List (List Char) := ["vendor".toList, "service".toList, "fees".toList]

/-- Keyword list of the Partnership Deed rule (line 65). -/
def kwPartnership : List (List Char) := ["partner".toList, "profit sharing".toList]

/-- The rules dict of classify_contract (lines 61-66), in insertion order. -/
def contractRules : List (List Char × List (List Char)) :=
  [("Employment Agreement".toList, kwEmployment),
   ("Lease Agreement".toList, kwLease),
   ("Vendor / Service Agreement".toList, kwVendor),
   ("Partnership Deed".toList, kwPartnership)]

/-- Python sum(w in t for w in v): how many keywords of one type occur in t. -/
def typeScore (t : List Char) (kws : List (List Char)) : Nat :=
  kws.countP (fun k => isSubstr k t)

/-- The scores dict of line 67 as an insertion-ordered association list. -/
def scoresOf (text : List Char) : List (List Char × Nat) :=
  contractRules.map (fun r => (r.1, typeScore (lowerStr text) r.2))

/-- One step of Python max(scores, key=scores.get): keep the current entry
unless the next one is strictly greater, so the first maximum wins. -/
def pickStep (b y : List Char × Nat) : List Char × Nat := if b.2 < y.2 then y else b

/-- Python max(scores, key=scores.get) over the insertion-ordered dict
(line 68); the empty case is unreachable since the rules dict is non-empty. -/
def bestOf : List (List Char × Nat) → List Char × Nat
  | [] => ([], 0)
  | x :: xs => xs.foldl pickStep x

/-- Round-half-to-even of a rational to an integer, the rounding Python
round uses. -/
def roundHalfEvenInt (x : ℚ) : ℤ :=
  if x - (⌊x⌋ : ℚ) < 1/2 then ⌊x⌋
  else if (1 : ℚ)/2 < x - (⌊x⌋ : ℚ) then ⌊x⌋ + 1
  else if ⌊x⌋ % 2 = 0 then ⌊x⌋ else ⌊x⌋ + 1

/-- Python round(x, 2) of line 69. Floats are modelled as exact rationals with
half-to-even rounding at two decimals: every ratio reachable from
classify_contract has denominator at most 13, so it is either non-tied (and
the double rounds exactly like the exact rational) or an exact binary
multiple of 1/8, where the double also rounds half-to-even. -/
def round2 (q : ℚ) : ℚ := ((roundHalfEvenInt (q * 100) : ℤ) : ℚ) / 100

/-- classify_contract of src/main.py lines 59-70: score every type, take the
first type attaining the maximal score, and damp the confidence by
best / (sum of all scores + 1), rounded to two decimals. -/
def classify_contract (text : List Char) : List Char × ℚ :=
  let scores := scoresOf text
  let best := bestOf scores
  (best.1, round2 ((best.2 : ℚ) / (((scores.map Prod.snd).sum : ℚ) + 1)))

/-- The maximal score over all contract types (spec-side description of the
quantity the classifier maximises). -/
def maxScore (text : List Char) : Nat := ((scoresOf text).map Prod.snd).foldl Nat.max 0

/-! ### Normalizer (src/main.py lines 51-56) -/

/-- Result of normalize_language: a language tag and the passed-through text. -/
structure LangResult where
  language : List Char
  normalized : List Char
deriving DecidableEq

/-- The lang variable of lines 52-55: the external langdetect call is a
parameter det; det text = none models detect raising (the except branch
sets lang to unknown), det text = some code models a detected code. -/
def detectedLang (det : List Char → Option (List Char)) (text : List Char) : List Char :=
  (det text).getD "unknown".toList

/-- normalize_language of src/main.py lines 51-56: Hindi when the detected
code is hi, English otherwise; the text passes through unchanged. -/
def normalize_language (det : List Char → Option (List Char)) (text : List Char) : LangResult :=
  ⟨if detectedLang det text = "hi".toList then "Hindi".toList else "English".toList, text⟩

/-! ### ClauseSegmenter (src/main.py lines 73-85) -/

/-- Whitespace collapse re.sub of line 74: every maximal run of whitespace
becomes a single space. The flag records whether the previous character was
part of a whitespace run. -/
def collapseAux : Bool → List Char → List Char
  | _, [] => []
  | prevSp, c :: cs =>
    if isPySpace c then
      if prevSp then collapseAux true cs else ' ' :: collapseAux true cs
    else c :: collapseAux false cs

/-- The whitespace-collapsed text used throughout extract_clauses. -/
def collapseWs (l : List Char) : List Char := collapseAux false l

/-- A titled clause, the dict appended at line 80 and line 83. -/
structure Clause where
  title : List Char
  text : List Char
deriving DecidableEq

/-- One-or-more characters of a class: a greedy regex class-plus whose
follower is outside the class, so greediness is deterministic. Returns the
maximal run and the rest, or fails when the run is empty. -/
def takeReq (p : Char → Bool) (cs : List Char) : Option (List Char × List Char) :=
  match cs.takeWhile p with
  | [] => none
  | t => some (t, cs.dropWhile p)

/-- Exactly one character of a class. -/
def charReq (p : Char → Bool) : List Char → Option (Char × List Char)
  | [] => none
  | c :: cs => if p c then some (c, cs) else none

/-- Characters of the letters-or-whitespace run of the heading pattern. -/
def isHeadChar (c : Char) : Bool := c.isAlpha || isPySpace c

/-- The capturing group of the heading regex of line 75: one or more digits,
a dot or closing parenthesis, optional whitespace, an upper-case letter, a
non-empty run of letters and whitespace, then a colon. Backtracking is
deterministic because each quantified class excludes its follower. Returns
(captured group, rest of the text). -/
def matchHeadGroup (cs : List Char) : Option (List Char × List Char) :=
  match takeReq Char.isDigit cs with
  | none => none
  | some (ds, r1) =>
    match charReq (fun c => c == '.' || c == ')') r1 with
    | none => none
    | some (p1, r2) =>
      match charReq (fun c => 'A' ≤ c && c ≤ 'Z') (r2.dropWhile isPySpace) with
      | none => none
      | some (u, r4) =>
        match takeReq isHeadChar r4 with
        | none => none
        | some (run, r5) =>
          match charReq (fun c => c == ':') r5 with
          | none => none
          | some (_, r6) =>
            some (ds ++ p1 :: (r2.takeWhile isPySpace ++ u :: (run ++ [':'])), r6)

/-- The whitespace alternative of the non-capturing prefix of the heading
pattern: consume one whitespace character, then match the group. Returns
(consumed separator, captured group, rest). -/
def spaceHeading : List Char → Option (List Char × List Char × List Char)
  | [] => none
  | c :: cs2 =>
    if isPySpace c then
      match matchHeadGroup cs2 with
      | some (g, r) => some ([c], g, r)
      | none => none
    else none

/-- One attempt of the full heading pattern at the current position: at the
start of the string the empty start-anchor alternative is tried first, as
the regex engine does; elsewhere a whitespace character must be consumed. -/
def tryHeading (atStart : Bool) (cs : List Char) :
    Option (List Char × List Char × List Char) :=
  if atStart then
    match matchHeadGroup cs with
    | some (g, r) => some ([], g, r)
    | none => spaceHeading cs
  else spaceHeading cs

/-- The scanner of re.split on the heading pattern (line 76): walk the text,
at each position try the pattern (the start-anchored alternative only at
position zero); a match emits its separator, captured group and the text up
to the next match as the body; a non-match shifts one character into the
current segment. This yields the parts list of re.split: the first component
is the text before the first match, and each triple is (separator consumed
by the match, captured heading, following body). Fuel bounds the recursion;
text.length suffices because every step consumes at least one character. -/
def scanHeadings :
    Nat → Bool → List Char → List Char × List (List Char × List Char × List Char)
  | 0, _, cs => (cs, [])
  | fuel+1, atStart, cs =>
    match tryHeading atStart cs with
    | some (s, g, r) =>
      let bm := scanHeadings fuel false r
      ([], (s, g, bm.1) :: bm.2)
    | none =>
      match cs with
      | [] => ([], [])
      | c :: cs2 =>
        let pm := scanHeadings fuel false cs2
        (c :: pm.1, pm.2)

/-- The heading split of a collapsed text, with enough fuel. -/
def headScan (cs : List Char) : List Char × List (List Char × List Char × List Char) :=
  scanHeadings cs.length true cs

/-- Python str.strip with a character predicate: drop matching characters
from both ends. -/
def stripPy (p : Char → Bool) (l : List Char) : List Char :=
  ((l.dropWhile p).reverse.dropWhile p).reverse

/-- The characters stripped from clause titles by strip of colon-space. -/
def isColonSpace (c : Char) : Bool := c == ':' || c == ' '

/-- extract_clauses of src/main.py lines 73-85: collapse whitespace, split on
the heading pattern, pair each captured heading (stripped of colons and
spaces, line 80) with its body (stripped of whitespace); if no heading
matched, fall back to one General Clause holding the whole collapsed text
(lines 82-83). The loop over parts of line 79 pairs the capture at index
2i+1 with the body at index 2i+2, which is exactly the triples list of the
scanner. -/
def extract_clauses (input : List Char) : List Clause :=
  if ((headScan (collapseWs input)).2.map
      (fun m => Clause.mk (stripPy isColonSpace m.2.1) (stripPy isPySpace m.2.2))).isEmpty then
    [Clause.mk "General Clause".toList (collapseWs input)]
  else
    (headScan (collapseWs input)).2.map
      (fun m => Clause.mk (stripPy isColonSpace m.2.1) (stripPy isPySpace m.2.2))

/-- Concatenation of all pieces of the heading split, in document order. -/
def flattenScan (ms : List (List Char × List Char × List Char)) : List Char :=
  ms.foldr (fun m acc => m.1 ++ (m.2.1 ++ (m.2.2 ++ acc))) []

/-- Concatenation of the clause bodies, in document order. -/
def joinBodies (cls : List Clause) : List Char :=
  (cls.map Clause.text).foldr (fun b acc => b ++ acc) []

/-! ### EntityExtractor (src/main.py lines 88-94) -/

/-- Word characters for the regex word boundary (ASCII part): letters,
digits, underscore. -/
def isWordChar (c : Char) : Bool := c.isAlphanum || c == '_'

/-- First success of f over a list of candidates: the ordered backtracking
of a regex alternation or of a greedy bounded quantifier. -/
def firstSome {α β : Type} (f : α → Option β) : List α → Option β
  | [] => none
  | x :: xs =>
    match f x with
    | some y => some y
    | none => firstSome f xs

/-- Alternation of literal prefixes followed by a tail continuation, with
the literal as the regex capture: the engine tries the alternatives in
order; a match is (capture, whole consumed match, rest). -/
def matchLitAlt (tail : List Char → Option (List Char × List Char)) :
    List (List Char) → List Char → Option (List Char × List Char × List Char)
  | [], _ => none
  | lit :: alts, cs =>
    if lit.isPrefixOf cs then
      match tail (cs.drop lit.length) with
      | some (consumed, rest) => some (lit, lit ++ consumed, rest)
      | none => matchLitAlt tail alts cs
    else matchLitAlt tail alts cs

/-- Tail of the Parties pattern after the role keyword: one-or-more
whitespace, an upper-case letter, a non-empty run of letters, spaces and
ampersands. Each greedy class excludes its follower, so greediness is
deterministic. -/
def partyTail (cs : List Char) : Option (List Char × List Char) :=
  match takeReq isPySpace cs with
  | none => none
  | some (sp, r1) =>
    match charReq (fun c => 'A' ≤ c && c ≤ 'Z') r1 with
    | none => none
    | some (u, r2) =>
      match takeReq (fun c => c.isAlpha || c == ' ' || c == '&') r2 with
      | none => none
      | some (run, r3) => some (sp ++ u :: run, r3)

/-- The role alternatives of the Parties pattern (line 90), in source order. -/
def roleAlts : List (List Char) :=
  ["Employer".toList, "Employee".toList, "Company".toList, "Vendor".toList,
   "Client".toList]

/-- One attempt of the Parties pattern at the current position; findall with
one capturing group returns only the role keyword. -/
def matchParty (_prev : Option Char) (cs : List Char) :
    Option (List Char × List Char × List Char) :=
  matchLitAlt partyTail roleAlts cs

/-- Candidates for a one-or-two-digit group of the Dates pattern, in greedy
order (two digits first). -/
def takeDigits12 (cs : List Char) : List (List Char × List Char) :=
  match cs with
  | a :: b :: r =>
    if a.isDigit && b.isDigit then [([a, b], r), ([a], b :: r)]
    else if a.isDigit then [([a], b :: r)]
    else []
  | [a] => if a.isDigit then [([a], [])] else []
  | [] => []

/-- Candidates for the two-to-four-digit year group, in greedy order. -/
def yearCands (cs : List Char) : List (List Char × List Char) :=
  match cs with
  | a :: b :: c :: d :: r =>
    if a.isDigit && b.isDigit && c.isDigit && d.isDigit then
      [([a, b, c, d], r), ([a, b, c], d :: r), ([a, b], c :: d :: r)]
    else if a.isDigit && b.isDigit && c.isDigit then
      [([a, b, c], d :: r), ([a, b], c :: d :: r)]
    else if a.isDigit && b.isDigit then [([a, b], c :: d :: r)]
    else []
  | [a, b, c] =>
    if a.isDigit && b.isDigit && c.isDigit then [([a, b, c], []), ([a, b], [c])]
    else if a.isDigit && b.isDigit then [([a, b], [c])]
    else []
  | [a, b] => if a.isDigit && b.isDigit then [([a, b], [])] else []
  | _ => []

/-- A date separator, slash or hyphen. -/
def dateSep (cs : List Char) : Option (Char × List Char) :=
  charReq (fun c => c == '/' || c == '-') cs

/-- One attempt of the Dates pattern at the current position. The leading
word boundary holds iff the previous character is absent or not a word
character (the first matched character is a digit, a word character); the
trailing boundary requires the next character to be absent or not a word
character. The bounded digit quantifiers backtrack in greedy order. findall
returns the whole match since this pattern has no capturing group. -/
def matchDate (prev : Option Char) (cs : List Char) :
    Option (List Char × List Char × List Char) :=
  if (match prev with | some c => isWordChar c | none => false) then none
  else
    firstSome (fun dr1 =>
      match dateSep dr1.2 with
      | none => none
      | some (s1, r2) =>
        firstSome (fun dr2 =>
          match dateSep dr2.2 with
          | none => none
          | some (s2, r4) =>
            firstSome (fun yr =>
              if (match yr.2 with | [] => true | c :: _ => !isWordChar c) then
                some (dr1.1 ++ s1 :: (dr2.1 ++ s2 :: yr.1),
                  dr1.1 ++ s1 :: (dr2.1 ++ s2 :: yr.1), yr.2)
              else none) (yearCands r4)) (takeDigits12 r2)) (takeDigits12 cs)

/-- The comma-separated thousands groups of the Amounts pattern: repeated
comma-plus-digits, greedy. Fuel bounds the loop; the text length suffices
since every iteration consumes at least two characters. -/
def commaGroups : Nat → List Char → List Char × List Char
  | 0, cs => ([], cs)
  | fuel+1, cs =>
    match cs with
    | ',' :: r =>
      match takeReq Char.isDigit r with
      | some (ds, r2) =>
        let more := commaGroups fuel r2
        (',' :: (ds ++ more.1), more.2)
      | none => ([], cs)
    | _ => ([], cs)

/-- The optional decimal part of the Amounts pattern: a dot followed by
digits, or nothing. -/
def decPart (cs : List Char) : List Char × List Char :=
  match cs with
  | '.' :: r =>
    match takeReq Char.isDigit r with
    | some (ds, r2) => ('.' :: ds, r2)
    | none => ([], cs)
  | _ => ([], cs)

/-- Tail of the Amounts pattern after the currency marker: an optional
single whitespace, one-or-more digits, thousands groups and an optional
decimal part. -/
def amountTail (cs : List Char) : Option (List Char × List Char) :=
  let sp := match cs with
    | c :: r => if isPySpace c then ([c], r) else (([] : List Char), cs)
    | [] => ([], [])
  match takeReq Char.isDigit sp.2 with
  | none => none
  | some (ds, r2) =>
    let cg := commaGroups r2.length r2
    let dp := decPart cg.2
    some (sp.1 ++ ds ++ cg.1 ++ dp.1, dp.2)

/-- The currency alternatives of the Amounts pattern (line 92) in the order
the engine tries them: rupee sign, dollar sign, then the Rs alternative
whose greedy optional dot is tried with the dot first. -/
def amountSymAlts : List (List Char) :=
  ["₹".toList, "$".toList, "Rs.".toList, "Rs".toList]

/-- One attempt of the Amounts pattern; findall with one capturing group
returns only the currency marker. -/
def matchAmount (_prev : Option Char) (cs : List Char) :
    Option (List Char × List Char × List Char) :=
  matchLitAlt amountTail amountSymAlts cs

/-- The place-name alternatives of the Jurisdiction pattern (line 93). -/
def jurAlts : List (List Char) :=
  ["India".toList, "Tamil Nadu".toList, "Delhi".toList, "Mumbai".toList,
   "Chennai".toList]

/-- One attempt of the Jurisdiction pattern; its group is the whole match. -/
def matchJur (_prev : Option Char) (cs : List Char) :
    Option (List Char × List Char × List Char) :=
  matchLitAlt (fun cs2 => some ([], cs2)) jurAlts cs

/-- The scanning loop of re.findall: at each position try the matcher; on a
match record its capture and resume after the consumed text, otherwise move
one character right. prev carries the previous character for the word
boundaries of the Dates pattern. Fuel bounds the recursion; text length
plus one suffices since every step consumes at least one character. -/
def pyFindAll
    (m : Option Char → List Char → Option (List Char × List Char × List Char)) :
    Nat → Option Char → List Char → List (List Char)
  | 0, _, _ => []
  | _+1, _, [] => []
  | fuel+1, prev, c :: cs =>
    match m prev (c :: cs) with
    | some (cap, consumed, rest) => cap :: pyFindAll m fuel consumed.getLast? rest
    | none => pyFindAll m fuel (some c) cs

/-- The four entity fields of extract_entities. -/
structure Entities where
  Parties : List (List Char)
  Dates : List (List Char)
  Amounts : List (List Char)
  Jurisdiction : List (List Char)
deriving DecidableEq

/-- Python list(set(...)) of lines 90-93: duplicates collapsed; the set
iteration order is unspecified in Python, modelled as first-occurrence
order. -/
def pySetList (l : List (List Char)) : List (List Char) := l.eraseDups

/-- extract_entities of src/main.py lines 88-94, with the findall semantics
of Python: a pattern with exactly one capturing group yields the list of
group captures (the role keyword for Parties, the currency marker for
Amounts, the whole match for Jurisdiction), and a pattern with no group
yields the whole matches (Dates). -/
def extract_entities (text : List Char) : Entities :=
  ⟨pySetList (pyFindAll matchParty (text.length + 1) none text),
   pySetList (pyFindAll matchDate (text.length + 1) none text),
   pySetList (pyFindAll matchAmount (text.length + 1) none text),
   pySetList (pyFindAll matchJur (text.length + 1) none text)⟩

/-! ### Theorems -/

/-- C6: the risk score is the sum of the fixed lexicon weights of the keywords
present as case-insensitive substrings, each counted once, and the tier is
High iff score is at least 7, Medium iff the score is in [4, 7), Low iff the
score is below 4; in particular a text containing indemnify and arbitration
and no other keyword scores 6 and is tiered Medium. -/
theorem risk_analysis_tiers (t : List Char) :
    (risk_analysis t = RiskTier.High ↔ 7 ≤ riskScore t) ∧
    (risk_analysis t = RiskTier.Medium ↔ 4 ≤ riskScore t ∧ riskScore t < 7) ∧
    (risk_analysis t = RiskTier.Low ↔ riskScore t < 4) ∧
    (((isSubstr "indemnify".toList (lowerStr t) = true) ∧
      (isSubstr "arbitration".toList (lowerStr t) = true) ∧
      (isSubstr "penalty".toList (lowerStr t) = false) ∧
      (isSubstr "terminate at any time".toList (lowerStr t) = false) ∧
      (isSubstr "without notice".toList (lowerStr t) = false) ∧
      (isSubstr "non compete".toList (lowerStr t) = false) ∧
      (isSubstr "auto renew".toList (lowerStr t) = false) ∧
      (isSubstr "jurisdiction".toList (lowerStr t) = false)) →
      riskScore t = 6 ∧ risk_analysis t = RiskTier.Medium) := by
  refine ⟨?_, ?_, ?_, ?_⟩
  · unfold risk_analysis
    split_ifs with h1 h2 <;> simp_all
  · unfold risk_analysis
    split_ifs with h1 h2 <;> simp_all
  · unfold risk_analysis
    split_ifs with h1 h2 <;> simp_all
    omega
  · rintro ⟨h1, h2, h3, h4, h5, h6, h7, h8⟩
    have hsc : riskScore t = 6 := by
      unfold riskScore RISK_RULES
      simp only [List.map_cons, List.map_nil, List.sum_cons, List.sum_nil]
      rw [if_neg (fun hh => Bool.false_ne_true (h3.symm.trans hh)), if_pos h1,
        if_neg (fun hh => Bool.false_ne_true (h4.symm.trans hh)),
        if_neg (fun hh => Bool.false_ne_true (h5.symm.trans hh)),
        if_neg (fun hh => Bool.false_ne_true (h6.symm.trans hh)),
        if_neg (fun hh => Bool.false_ne_true (h7.symm.trans hh)), if_pos h2,
        if_neg (fun hh => Bool.false_ne_true (h8.symm.trans hh))]
      norm_num
    refine ⟨hsc, ?_⟩
    unfold risk_analysis
    rw [hsc]
    norm_num

/-- Witness for C6 at the concrete text from the spec example. -/
theorem risk_analysis_tiers_witness :
    riskScore "we indemnify via arbitration".toList = 6 ∧
    risk_analysis "we indemnify via arbitration".toList = RiskTier.Medium :=
  (risk_analysis_tiers "we indemnify via arbitration".toList).2.2.2 (by decide)

/-- C7: for a non-empty tier list the overall document tier is the maximum
tier under Low < Medium < High: it is attained by some clause and bounds
every clause tier. -/
theorem overall_is_max (rs : List RiskTier) (h : rs ≠ []) :
    overall rs ∈ rs ∧ ∀ r ∈ rs, RiskTier.toNat r ≤ RiskTier.toNat (overall rs) := by
  unfold overall
  split_ifs with hH hM
  · exact ⟨hH, fun r _ => by cases r <;> simp [RiskTier.toNat]⟩
  · refine ⟨hM, fun r hr => ?_⟩
    cases r with
    | Low => simp [RiskTier.toNat]
    | Medium => simp [RiskTier.toNat]
    | High => exact absurd hr hH
  · obtain ⟨x, hx⟩ := List.exists_mem_of_ne_nil rs h
    have hxl : x = RiskTier.Low := by
      cases x with
      | Low => rfl
      | Medium => exact absurd hx hM
      | High => exact absurd hx hH
    refine ⟨hxl ▸ hx, fun r hr => ?_⟩
    cases r with
    | Low => simp [RiskTier.toNat]
    | Medium => exact absurd hr hM
    | High => exact absurd hr hH

/-- Witness for C7 at the tier list of the spec example. -/
theorem overall_is_max_witness :
    overall [RiskTier.Low, RiskTier.Medium, RiskTier.Low] ∈
      [RiskTier.Low, RiskTier.Medium, RiskTier.Low] :=
  (overall_is_max [RiskTier.Low, RiskTier.Medium, RiskTier.Low] (by decide)).1

theorem scoresOf_eq (t : List Char) :
    scoresOf t =
      [("Employment Agreement".toList, typeScore (lowerStr t) kwEmployment),
       ("Lease Agreement".toList, typeScore (lowerStr t) kwLease),
       ("Vendor / Service Agreement".toList, typeScore (lowerStr t) kwVendor),
       ("Partnership Deed".toList, typeScore (lowerStr t) kwPartnership)] := rfl

theorem pickStep_fst_le (x y : List Char × Nat) : x.2 ≤ (pickStep x y).2 := by
  unfold pickStep
  split_ifs with h <;> omega

theorem pickStep_snd_le (x y : List Char × Nat) : y.2 ≤ (pickStep x y).2 := by
  unfold pickStep
  split_ifs with h <;> omega

theorem pickStep_cases (x y : List Char × Nat) : pickStep x y = x ∨ pickStep x y = y := by
  unfold pickStep
  split_ifs with h
  · exact Or.inr rfl
  · exact Or.inl rfl

theorem foldl_pick_start_le :
    ∀ (l : List (List Char × Nat)) (x : List Char × Nat), x.2 ≤ (l.foldl pickStep x).2
  | [], _ => le_refl _
  | y :: l, x =>
    le_trans (pickStep_fst_le x y) (foldl_pick_start_le l (pickStep x y))

theorem foldl_pick_mem_le :
    ∀ (l : List (List Char × Nat)) (x p : List Char × Nat),
      p ∈ l → p.2 ≤ (l.foldl pickStep x).2
  | y :: l, x, p, hp => by
    rcases List.mem_cons.mp hp with h | h
    · subst h
      exact le_trans (pickStep_snd_le x p) (foldl_pick_start_le l _)
    · exact foldl_pick_mem_le l (pickStep x y) p h

theorem foldl_pick_mem :
    ∀ (l : List (List Char × Nat)) (x : List Char × Nat),
      l.foldl pickStep x = x ∨ l.foldl pickStep x ∈ l
  | [], _ => Or.inl rfl
  | y :: l, x => by
    simp only [List.foldl_cons]
    rcases foldl_pick_mem l (pickStep x y) with h | h
    · rw [h]
      rcases pickStep_cases x y with h2 | h2
      · exact Or.inl h2
      · refine Or.inr ?_
        rw [h2]
        exact List.mem_cons_self y l
    · exact Or.inr (List.mem_cons_of_mem y h)

theorem foldl_pick_find :
    ∀ (l : List (List Char × Nat)) (x : List Char × Nat),
      List.find? (fun p => p.2 == (l.foldl pickStep x).2) (x :: l) =
        some (l.foldl pickStep x)
  | [], x => by simp
  | y :: l, x => by
    simp only [List.foldl_cons]
    by_cases hxy : x.2 < y.2
    · have hstep : pickStep x y = y := by
        unfold pickStep
        rw [if_pos hxy]
      rw [hstep]
      have hlt : x.2 < (l.foldl pickStep y).2 :=
        lt_of_lt_of_le hxy (foldl_pick_start_le l y)
      have hxc : (x.2 == (l.foldl pickStep y).2) = false := by
        simp only [beq_eq_false_iff_ne, ne_eq]
        omega
      simp only [List.find?, hxc]
      exact foldl_pick_find l y
    · have hstep : pickStep x y = x := by
        unfold pickStep
        rw [if_neg hxy]
      rw [hstep]
      have hIH := foldl_pick_find l x
      by_cases hx : (x.2 == (l.foldl pickStep x).2) = true
      · simp only [List.find?, hx] at hIH ⊢
        exact hIH
      · have hxf : (x.2 == (l.foldl pickStep x).2) = false := by
          cases hb : (x.2 == (l.foldl pickStep x).2) with
          | false => rfl
          | true => exact absurd hb hx
        have h1 : y.2 ≤ x.2 := Nat.le_of_not_lt hxy
        have h2 : x.2 ≤ (l.foldl pickStep x).2 := foldl_pick_start_le l x
        have hyf : (y.2 == (l.foldl pickStep x).2) = false := by
          simp only [beq_iff_eq] at hx
          simp only [beq_eq_false_iff_ne, ne_eq]
          omega
        simp only [List.find?, hxf, hyf] at hIH ⊢
        exact hIH

theorem bestOf_mem (x : List Char × Nat) (l : List (List Char × Nat)) :
    bestOf (x :: l) ∈ x :: l := by
  have hb : bestOf (x :: l) = l.foldl pickStep x := rfl
  rw [hb]
  rcases foldl_pick_mem l x with h | h
  · rw [h]
    exact List.mem_cons_self x l
  · exact List.mem_cons_of_mem x h

theorem bestOf_le (x : List Char × Nat) (l : List (List Char × Nat)) :
    ∀ p ∈ x :: l, p.2 ≤ (bestOf (x :: l)).2 := by
  intro p hp
  have hb : bestOf (x :: l) = l.foldl pickStep x := rfl
  rw [hb]
  rcases List.mem_cons.mp hp with h | h
  · rw [h]
    exact foldl_pick_start_le l x
  · exact foldl_pick_mem_le l x p h

theorem foldl_max_eq :
    ∀ (ns : List Nat) (a x : Nat), a ≤ x → (x ∈ ns ∨ a = x) → (∀ y ∈ ns, y ≤ x) →
      ns.foldl Nat.max a = x
  | [], a, x, _, hmem, _ => by
    rcases hmem with h | h
    · exact absurd h (List.not_mem_nil x)
    · simpa using h
  | n :: ns, a, x, ha, hmem, hall => by
    simp only [List.foldl_cons]
    have hn : n ≤ x := hall n (List.mem_cons_self n ns)
    apply foldl_max_eq ns (Nat.max a n) x
    · exact Nat.max_le.mpr ⟨ha, hn⟩
    · rcases hmem with h | h
      · rcases List.mem_cons.mp h with h2 | h2
        · right
          subst h2
          exact Nat.max_eq_right ha
        · exact Or.inl h2
      · right
        subst h
        exact Nat.max_eq_left hn
    · intro y hy
      exact hall y (List.mem_cons_of_mem n hy)

theorem maxScore_eq_bestOf (t : List Char) : maxScore t = (bestOf (scoresOf t)).2 := by
  unfold maxScore
  apply foldl_max_eq
  · exact Nat.zero_le _
  · left
    apply List.mem_map_of_mem Prod.snd
    rw [scoresOf_eq]
    exact bestOf_mem _ _
  · intro y hy
    rcases List.mem_map.mp hy with ⟨p, hp, rfl⟩
    rw [scoresOf_eq] at hp ⊢
    exact bestOf_le _ _ p hp

theorem rhe_ge_floor (x : ℚ) : ⌊x⌋ ≤ roundHalfEvenInt x := by
  unfold roundHalfEvenInt
  split_ifs <;> omega

theorem rhe_le_floor_add_one (x : ℚ) : roundHalfEvenInt x ≤ ⌊x⌋ + 1 := by
  unfold roundHalfEvenInt
  split_ifs <;> omega

theorem rhe_le_of_le {x : ℚ} {k : ℤ} (h : x ≤ (k : ℚ)) : roundHalfEvenInt x ≤ k := by
  have hfk : ⌊x⌋ ≤ k := by
    have := Int.floor_le_floor h
    simpa using this
  have hlow : (⌊x⌋ : ℚ) ≤ x := Int.floor_le x
  unfold roundHalfEvenInt
  split_ifs with h1 h2 h3
  · exact hfk
  · rcases lt_or_eq_of_le hfk with hlt | heq
    · omega
    · exfalso
      have : (⌊x⌋ : ℚ) = (k : ℚ) := by exact_mod_cast heq
      linarith
  · exact hfk
  · rcases lt_or_eq_of_le hfk with hlt | heq
    · omega
    · exfalso
      have : (⌊x⌋ : ℚ) = (k : ℚ) := by exact_mod_cast heq
      have : (1 : ℚ)/2 ≤ x - (⌊x⌋ : ℚ) := le_of_not_lt h1
      linarith

theorem rhe_ge_of_ge {x : ℚ} {k : ℤ} (h : (k : ℚ) ≤ x) : k ≤ roundHalfEvenInt x := by
  have hfk : k ≤ ⌊x⌋ := Int.le_floor.mpr h
  have := rhe_ge_floor x
  omega

theorem round2_le_of_le {q : ℚ} {k : ℤ} (h : q ≤ (k : ℚ) / 100) : round2 q ≤ (k : ℚ) / 100 := by
  have h100 : q * 100 ≤ (k : ℚ) := by linarith
  have hn : roundHalfEvenInt (q * 100) ≤ k := rhe_le_of_le h100
  unfold round2
  have : ((roundHalfEvenInt (q * 100) : ℤ) : ℚ) ≤ (k : ℚ) := by exact_mod_cast hn
  linarith

theorem round2_ge_of_ge {q : ℚ} {k : ℤ} (h : (k : ℚ) / 100 ≤ q) : (k : ℚ) / 100 ≤ round2 q := by
  have h100 : (k : ℚ) ≤ q * 100 := by linarith
  have hn : k ≤ roundHalfEvenInt (q * 100) := rhe_ge_of_ge h100
  unfold round2
  have : (k : ℚ) ≤ ((roundHalfEvenInt (q * 100) : ℤ) : ℚ) := by exact_mod_cast hn
  linarith

theorem round2_le_add (q : ℚ) : round2 q ≤ q + 1/100 := by
  have h1 : roundHalfEvenInt (q * 100) ≤ ⌊q * 100⌋ + 1 := rhe_le_floor_add_one _
  have h2 : (⌊q * 100⌋ : ℚ) ≤ q * 100 := Int.floor_le _
  unfold round2
  have h3 : ((roundHalfEvenInt (q * 100) : ℤ) : ℚ) ≤ (⌊q * 100⌋ : ℚ) + 1 := by exact_mod_cast h1
  linarith

theorem round2_zero : round2 0 = 0 := by
  norm_num [round2, roundHalfEvenInt]

theorem scores_le_best (t : List Char) :
    ∀ p ∈ scoresOf t, p.2 ≤ (bestOf (scoresOf t)).2 := by
  rw [scoresOf_eq]
  exact bestOf_le _ _

theorem best_val_cases (t : List Char) :
    (bestOf (scoresOf t)).2 = typeScore (lowerStr t) kwEmployment ∨
    (bestOf (scoresOf t)).2 = typeScore (lowerStr t) kwLease ∨
    (bestOf (scoresOf t)).2 = typeScore (lowerStr t) kwVendor ∨
    (bestOf (scoresOf t)).2 = typeScore (lowerStr t) kwPartnership := by
  have hbm : bestOf (scoresOf t) ∈ scoresOf t := by
    rw [scoresOf_eq]
    exact bestOf_mem _ _
  rw [scoresOf_eq t] at hbm
  simp only [List.mem_cons, List.not_mem_nil, or_false] at hbm
  rcases hbm with h | h | h | h
  · left
    rw [scoresOf_eq, h]
  · right; left
    rw [scoresOf_eq, h]
  · right; right; left
    rw [scoresOf_eq, h]
  · right; right; right
    rw [scoresOf_eq, h]

theorem typeScore_kwEmployment_le (t : List Char) : typeScore t kwEmployment ≤ 4 := by
  unfold typeScore kwEmployment
  exact List.countP_le_length _

theorem typeScore_kwLease_le (t : List Char) : typeScore t kwLease ≤ 3 := by
  unfold typeScore kwLease
  exact List.countP_le_length _

theorem typeScore_kwVendor_le (t : List Char) : typeScore t kwVendor ≤ 3 := by
  unfold typeScore kwVendor
  exact List.countP_le_length _

theorem typeScore_kwPartnership_le (t : List Char) : typeScore t kwPartnership ≤ 2 := by
  unfold typeScore kwPartnership
  exact List.countP_le_length _

theorem scores_sum_eq (t : List Char) :
    ((scoresOf t).map Prod.snd).sum =
      typeScore (lowerStr t) kwEmployment + typeScore (lowerStr t) kwLease +
      typeScore (lowerStr t) kwVendor + typeScore (lowerStr t) kwPartnership := by
  rw [scoresOf_eq]
  simp only [List.map_cons, List.map_nil, List.sum_cons, List.sum_nil]
  omega

theorem best_le_four (t : List Char) : (bestOf (scoresOf t)).2 ≤ 4 := by
  have h1 := typeScore_kwEmployment_le (lowerStr t)
  have h2 := typeScore_kwLease_le (lowerStr t)
  have h3 := typeScore_kwVendor_le (lowerStr t)
  have h4 := typeScore_kwPartnership_le (lowerStr t)
  rcases best_val_cases t with h | h | h | h <;> omega

theorem best_le_sum (t : List Char) :
    (bestOf (scoresOf t)).2 ≤ ((scoresOf t).map Prod.snd).sum := by
  have hs := scores_sum_eq t
  have h1 := typeScore_kwEmployment_le (lowerStr t)
  have h2 := typeScore_kwLease_le (lowerStr t)
  have h3 := typeScore_kwVendor_le (lowerStr t)
  have h4 := typeScore_kwPartnership_le (lowerStr t)
  rcases best_val_cases t with h | h | h | h <;> omega

theorem sum_le_twelve (t : List Char) : ((scoresOf t).map Prod.snd).sum ≤ 12 := by
  have hs := scores_sum_eq t
  have h1 := typeScore_kwEmployment_le (lowerStr t)
  have h2 := typeScore_kwLease_le (lowerStr t)
  have h3 := typeScore_kwVendor_le (lowerStr t)
  have h4 := typeScore_kwPartnership_le (lowerStr t)
  omega

/-- C8: the classifier confidence equals bestScore divided by the sum of all
type scores plus one, rounded to two decimals; it lies in [0, 1); and it is
zero exactly when the text contains no keyword of any contract type. -/
theorem classify_contract_confidence (t : List Char) :
    (classify_contract t).2 =
      round2 (((bestOf (scoresOf t)).2 : ℚ) / ((((scoresOf t).map Prod.snd).sum : ℚ) + 1)) ∧
    0 ≤ (classify_contract t).2 ∧
    (classify_contract t).2 < 1 ∧
    ((classify_contract t).2 = 0 ↔
      ∀ r ∈ contractRules, ∀ k ∈ r.2, isSubstr k (lowerStr t) = false) := by
  have hconf : (classify_contract t).2 =
      round2 (((bestOf (scoresOf t)).2 : ℚ) /
        ((((scoresOf t).map Prod.snd).sum : ℚ) + 1)) := rfl
  have hmT : (bestOf (scoresOf t)).2 ≤ ((scoresOf t).map Prod.snd).sum := best_le_sum t
  have hT12 : ((scoresOf t).map Prod.snd).sum ≤ 12 := sum_le_twelve t
  have hm' : ((bestOf (scoresOf t)).2 : ℚ) ≤ (((scoresOf t).map Prod.snd).sum : ℚ) := by
    exact_mod_cast hmT
  have hT' : (((scoresOf t).map Prod.snd).sum : ℚ) ≤ 12 := by exact_mod_cast hT12
  have hden : (0 : ℚ) < (((scoresOf t).map Prod.snd).sum : ℚ) + 1 := by positivity
  refine ⟨hconf, ?_, ?_, ?_⟩
  · rw [hconf]
    have h0 : (((0 : ℤ) : ℚ)) / 100 ≤ ((bestOf (scoresOf t)).2 : ℚ) /
        ((((scoresOf t).map Prod.snd).sum : ℚ) + 1) := by
      have : (0 : ℚ) ≤ ((bestOf (scoresOf t)).2 : ℚ) /
          ((((scoresOf t).map Prod.snd).sum : ℚ) + 1) :=
        div_nonneg (by positivity) (le_of_lt hden)
      simpa using this
    have := round2_ge_of_ge h0
    simpa using this
  · rw [hconf]
    have hq : ((bestOf (scoresOf t)).2 : ℚ) /
        ((((scoresOf t).map Prod.snd).sum : ℚ) + 1) ≤ 12/13 := by
      rw [div_le_div_iff₀ hden (by norm_num)]
      linarith
    have := round2_le_add (((bestOf (scoresOf t)).2 : ℚ) /
      ((((scoresOf t).map Prod.snd).sum : ℚ) + 1))
    linarith
  · constructor
    · intro h0
      by_contra hcon
      push_neg at hcon
      obtain ⟨r, hr, k, hk, hksub⟩ := hcon
      have hktrue : isSubstr k (lowerStr t) = true := by
        cases hb : isSubstr k (lowerStr t)
        · exact absurd hb hksub
        · rfl
      have hscore : 1 ≤ typeScore (lowerStr t) r.2 := by
        unfold typeScore
        have : 0 < List.countP (fun kk => isSubstr kk (lowerStr t)) r.2 :=
          List.countP_pos_iff.mpr ⟨k, hk, by simp [hktrue]⟩
        omega
      have hmem : (r.1, typeScore (lowerStr t) r.2) ∈ scoresOf t :=
        List.mem_map_of_mem _ hr
      have hbig := scores_le_best t _ hmem
      have hpos : 1 ≤ (bestOf (scoresOf t)).2 := le_trans hscore hbig
      have hpos' : (1 : ℚ) ≤ ((bestOf (scoresOf t)).2 : ℚ) := by exact_mod_cast hpos
      have hq7 : (((7 : ℤ) : ℚ)) / 100 ≤ ((bestOf (scoresOf t)).2 : ℚ) /
          ((((scoresOf t).map Prod.snd).sum : ℚ) + 1) := by
        have h7 : (((7 : ℤ) : ℚ)) = 7 := by norm_num
        rw [h7, div_le_div_iff₀ (by norm_num) hden]
        linarith
      have hge := round2_ge_of_ge hq7
      rw [← hconf, h0] at hge
      norm_num at hge
    · intro hall
      have hA0 : typeScore (lowerStr t) kwEmployment = 0 := by
        unfold typeScore
        apply List.countP_eq_zero.mpr
        intro k hk
        have := hall ("Employment Agreement".toList, kwEmployment)
          (by simp [contractRules]) k hk
        simp [this]
      have hB0 : typeScore (lowerStr t) kwLease = 0 := by
        unfold typeScore
        apply List.countP_eq_zero.mpr
        intro k hk
        have := hall ("Lease Agreement".toList, kwLease)
          (by simp [contractRules]) k hk
        simp [this]
      have hC0 : typeScore (lowerStr t) kwVendor = 0 := by
        unfold typeScore
        apply List.countP_eq_zero.mpr
        intro k hk
        have := hall ("Vendor / Service Agreement".toList, kwVendor)
          (by simp [contractRules]) k hk
        simp [this]
      have hD0 : typeScore (lowerStr t) kwPartnership = 0 := by
        unfold typeScore
        apply List.countP_eq_zero.mpr
        intro k hk
        have := hall ("Partnership Deed".toList, kwPartnership)
          (by simp [contractRules]) k hk
        simp [this]
      have hm0 : (bestOf (scoresOf t)).2 = 0 := by
        rcases best_val_cases t with h | h | h | h <;> omega
      have hT0 : ((scoresOf t).map Prod.snd).sum = 0 := by
        have := scores_sum_eq t
        omega
      rw [hconf, hm0, hT0]
      norm_num [round2_zero]

/-- Witness for C8 (evaluating the bounds at a concrete input). -/
theorem classify_contract_confidence_witness :
    0 ≤ (classify_contract "employee salary".toList).2 ∧
    (classify_contract "employee salary".toList).2 < 1 :=
  ⟨(classify_contract_confidence "employee salary".toList).2.1,
   (classify_contract_confidence "employee salary".toList).2.2.1⟩

/-- C9: whenever two or more contract types attain the maximal keyword count,
the classifier deterministically returns the first such type in the fixed
declaration order of the rules dict. -/
theorem classify_contract_tie_first (t : List Char)
    (_h : ∃ p ∈ scoresOf t, ∃ q ∈ scoresOf t,
      p.1 ≠ q.1 ∧ p.2 = maxScore t ∧ q.2 = maxScore t) :
    (List.find? (fun p => p.2 == maxScore t) (scoresOf t)).map Prod.fst =
      some (classify_contract t).1 := by
  rw [maxScore_eq_bestOf t]
  have hfind : List.find? (fun p => p.2 == (bestOf (scoresOf t)).2) (scoresOf t) =
      some (bestOf (scoresOf t)) := by
    rw [scoresOf_eq]
    exact foldl_pick_find _ _
  rw [hfind]
  rfl

/-- Witness for C9: on the text rent vendor the Lease and Vendor types tie
with one keyword each, and the classifier returns the Lease type. -/
theorem classify_contract_tie_first_witness :
    (List.find? (fun p => p.2 == maxScore "rent vendor".toList)
      (scoresOf "rent vendor".toList)).map Prod.fst =
      some (classify_contract "rent vendor".toList).1 :=
  classify_contract_tie_first "rent vendor".toList (by decide)

/-- C10: the classifier confidence never exceeds 0.8 = 4/5: no keyword list
has more than 4 entries and the denominator adds every score plus one. -/
theorem classify_contract_confidence_le (t : List Char) :
    (classify_contract t).2 ≤ 4/5 := by
  have hconf : (classify_contract t).2 =
      round2 (((bestOf (scoresOf t)).2 : ℚ) /
        ((((scoresOf t).map Prod.snd).sum : ℚ) + 1)) := rfl
  have hm4 : (bestOf (scoresOf t)).2 ≤ 4 := best_le_four t
  have hmT : (bestOf (scoresOf t)).2 ≤ ((scoresOf t).map Prod.snd).sum := best_le_sum t
  have hm4' : ((bestOf (scoresOf t)).2 : ℚ) ≤ 4 := by exact_mod_cast hm4
  have hmT' : ((bestOf (scoresOf t)).2 : ℚ) ≤ (((scoresOf t).map Prod.snd).sum : ℚ) := by
    exact_mod_cast hmT
  have hden : (0 : ℚ) < (((scoresOf t).map Prod.snd).sum : ℚ) + 1 := by positivity
  have hq : ((bestOf (scoresOf t)).2 : ℚ) /
      ((((scoresOf t).map Prod.snd).sum : ℚ) + 1) ≤ (((80 : ℤ) : ℚ)) / 100 := by
    have h80 : (((80 : ℤ) : ℚ)) = 80 := by norm_num
    rw [h80, div_le_div_iff₀ hden (by norm_num)]
    linarith
  have := round2_le_of_le hq
  rw [hconf]
  calc round2 (((bestOf (scoresOf t)).2 : ℚ) /
      ((((scoresOf t).map Prod.snd).sum : ℚ) + 1)) ≤ (((80 : ℤ) : ℚ)) / 100 := this
    _ = 4/5 := by norm_num

/-- C3 counterexample: when language detection fails the returned tag is
English, not unknown. -/
theorem normalize_language_failure_english :
    (normalize_language (fun _ => none) []).language = "English".toList ∧
    "English".toList ≠ "unknown".toList := by
  constructor
  · decide
  · decide

/-- C3 amended: normalize_language is total and its language tag is never
unknown: a detection failure and every detected code other than hi map to
English, hi maps to Hindi, and the text passes through unchanged. -/
theorem normalize_language_total (det : List Char → Option (List Char)) (text : List Char) :
    (normalize_language det text).normalized = text ∧
    ((normalize_language det text).language = "Hindi".toList ∨
     (normalize_language det text).language = "English".toList) ∧
    (det text = none → (normalize_language det text).language = "English".toList) ∧
    ((normalize_language det text).language = "Hindi".toList ↔
      det text = some "hi".toList) := by
  refine ⟨rfl, ?_, ?_, ?_⟩
  · by_cases h : detectedLang det text = "hi".toList
    · left
      unfold normalize_language
      rw [if_pos h]
    · right
      unfold normalize_language
      rw [if_neg h]
  · intro hdet
    unfold normalize_language
    rw [if_neg]
    unfold detectedLang
    rw [hdet]
    decide
  · constructor
    · intro hl
      by_cases h : detectedLang det text = "hi".toList
      · unfold detectedLang at h
        cases hdet : det text with
        | none =>
          rw [hdet] at h
          exact absurd h (by decide)
        | some l =>
          rw [hdet] at h
          simp only [Option.getD_some] at h
          rw [h]
      · exfalso
        have hl2 : (if detectedLang det text = "hi".toList then "Hindi".toList
            else "English".toList) = "Hindi".toList := hl
        rw [if_neg h] at hl2
        exact absurd hl2 (by decide)
    · intro hdet
      unfold normalize_language
      rw [if_pos]
      unfold detectedLang
      rw [hdet]
      rfl

/-- Witness for C3 amended at a concrete detector and text. -/
theorem normalize_language_total_witness :
    (normalize_language (fun _ => some "hi".toList) "x".toList).language = "Hindi".toList :=
  (normalize_language_total (fun _ => some "hi".toList) "x".toList).2.2.2.mpr rfl

theorem flattenScan_cons (m : List Char × List Char × List Char)
    (ms : List (List Char × List Char × List Char)) :
    flattenScan (m :: ms) = m.1 ++ (m.2.1 ++ (m.2.2 ++ flattenScan ms)) := rfl

theorem takeReq_eq {p : Char → Bool} {cs t r : List Char}
    (h : takeReq p cs = some (t, r)) :
    t ++ r = cs ∧ t ≠ [] ∧ ∀ c ∈ t, p c := by
  unfold takeReq at h
  cases htw : cs.takeWhile p with
  | nil =>
    rw [htw] at h
    exact absurd h (by simp)
  | cons t0 ts =>
    rw [htw] at h
    simp only [Option.some.injEq, Prod.mk.injEq] at h
    obtain ⟨ht, hr⟩ := h
    refine ⟨?_, ?_, ?_⟩
    · rw [← ht, ← hr, ← htw]
      exact List.takeWhile_append_dropWhile p cs
    · rw [← ht]
      simp
    · intro c hc
      rw [← ht] at hc
      rw [← htw] at hc
      exact List.mem_takeWhile_imp hc

theorem charReq_eq {p : Char → Bool} {cs r : List Char} {c : Char}
    (h : charReq p cs = some (c, r)) :
    c :: r = cs ∧ p c = true := by
  cases cs with
  | nil => exact absurd h (by simp [charReq])
  | cons c0 cs2 =>
    simp only [charReq] at h
    split_ifs at h with hp
    · simp only [Option.some.injEq, Prod.mk.injEq] at h
      obtain ⟨hc, hr⟩ := h
      subst hc
      subst hr
      exact ⟨rfl, hp⟩

theorem matchHeadGroup_eq {cs g r : List Char}
    (h : matchHeadGroup cs = some (g, r)) :
    g ++ r = cs ∧ ∃ d t2, g = d :: t2 ∧ d.isDigit = true := by
  unfold matchHeadGroup at h
  cases h1 : takeReq Char.isDigit cs with
  | none =>
    simp only [h1] at h
    exact Option.noConfusion h
  | some dr =>
    obtain ⟨ds, r1⟩ := dr
    simp only [h1] at h
    cases h2 : charReq (fun c => c == '.' || c == ')') r1 with
    | none =>
      simp only [h2] at h
      exact Option.noConfusion h
    | some pr =>
      obtain ⟨p1, r2⟩ := pr
      simp only [h2] at h
      cases h3 : charReq (fun c => 'A' ≤ c && c ≤ 'Z') (r2.dropWhile isPySpace) with
      | none =>
        simp only [h3] at h
        exact Option.noConfusion h
      | some ur =>
        obtain ⟨u, r4⟩ := ur
        simp only [h3] at h
        cases h4 : takeReq isHeadChar r4 with
        | none =>
          simp only [h4] at h
          exact Option.noConfusion h
        | some rr =>
          obtain ⟨run, r5⟩ := rr
          simp only [h4] at h
          cases h5 : charReq (fun c => c == ':') r5 with
          | none =>
            simp only [h5] at h
            exact Option.noConfusion h
          | some cr =>
            obtain ⟨c5, r6⟩ := cr
            simp only [h5] at h
            simp only [Option.some.injEq, Prod.mk.injEq] at h
            obtain ⟨hg, hr⟩ := h
            obtain ⟨hds, hdsne, hdsdig⟩ := takeReq_eq h1
            obtain ⟨hp1, _⟩ := charReq_eq h2
            obtain ⟨hu, _⟩ := charReq_eq h3
            obtain ⟨hrun, _, _⟩ := takeReq_eq h4
            obtain ⟨hc5, hc5c⟩ := charReq_eq h5
            have hc5e : c5 = ':' := by
              have := eq_of_beq hc5c
              exact this
            constructor
            · rw [← hg, ← hr]
              have hsp : r2.takeWhile isPySpace ++ (u :: r4) = r2 := by
                rw [hu]
                exact List.takeWhile_append_dropWhile isPySpace r2
              calc (ds ++ p1 :: (r2.takeWhile isPySpace ++ u :: (run ++ [':']))) ++ r6
                  = ds ++ p1 :: (r2.takeWhile isPySpace ++ u :: (run ++ (':' :: r6))) := by
                    simp [List.append_assoc]
                _ = ds ++ p1 :: (r2.takeWhile isPySpace ++ u :: (run ++ r5)) := by
                    rw [← hc5e, hc5]
                _ = ds ++ p1 :: (r2.takeWhile isPySpace ++ u :: r4) := by rw [hrun]
                _ = ds ++ p1 :: r2 := by
                    rw [hsp]
                _ = ds ++ r1 := by rw [hp1]
                _ = cs := hds
            · cases hds2 : ds with
              | nil => exact absurd hds2 hdsne
              | cons d tl =>
                refine ⟨d, tl ++ p1 :: (r2.takeWhile isPySpace ++ u :: (run ++ [':'])), ?_, ?_⟩
                · rw [← hg, hds2]
                  simp
                · apply hdsdig
                  rw [hds2]
                  exact List.mem_cons_self d tl

theorem spaceHeading_eq {cs s g r : List Char}
    (h : spaceHeading cs = some (s, g, r)) :
    s ++ (g ++ r) = cs ∧ ∃ d t2, g = d :: t2 ∧ d.isDigit = true := by
  cases cs with
  | nil => exact absurd h (by simp [spaceHeading])
  | cons c cs2 =>
    simp only [spaceHeading] at h
    split_ifs at h with hsp
    cases hm : matchHeadGroup cs2 with
    | none =>
      simp only [hm] at h
      exact Option.noConfusion h
    | some gr =>
      obtain ⟨g0, r0⟩ := gr
      simp only [hm] at h
      simp only [Option.some.injEq, Prod.mk.injEq] at h
      obtain ⟨hs, hg, hr⟩ := h
      obtain ⟨hrec, hdig⟩ := matchHeadGroup_eq hm
      subst hs
      subst hg
      subst hr
      constructor
      · simp [hrec]
      · exact hdig

theorem tryHeading_eq {a : Bool} {cs s g r : List Char}
    (h : tryHeading a cs = some (s, g, r)) :
    s ++ (g ++ r) = cs ∧ ∃ d t2, g = d :: t2 ∧ d.isDigit = true := by
  unfold tryHeading at h
  cases a with
  | false =>
    simp only [Bool.false_eq_true, if_false] at h
    exact spaceHeading_eq h
  | true =>
    simp only [if_true] at h
    cases hm : matchHeadGroup cs with
    | none =>
      rw [hm] at h
      exact spaceHeading_eq h
    | some gr =>
      obtain ⟨g0, r0⟩ := gr
      rw [hm] at h
      simp only [Option.some.injEq, Prod.mk.injEq] at h
      obtain ⟨hs, hg, hr⟩ := h
      obtain ⟨hrec, hdig⟩ := matchHeadGroup_eq hm
      subst hs
      subst hg
      subst hr
      constructor
      · simp [hrec]
      · exact hdig

theorem scanHeadings_reconstruct :
    ∀ (fuel : Nat) (a : Bool) (cs : List Char),
      (scanHeadings fuel a cs).1 ++ flattenScan (scanHeadings fuel a cs).2 = cs
  | 0, _, cs => by simp [scanHeadings, flattenScan]
  | fuel+1, a, cs => by
    cases hm : tryHeading a cs with
    | some sgr =>
      obtain ⟨s, g, r⟩ := sgr
      have hrec := scanHeadings_reconstruct fuel false r
      have heq := (tryHeading_eq hm).1
      simp only [scanHeadings, hm, flattenScan_cons, List.nil_append]
      rw [hrec]
      exact heq
    | none =>
      cases cs with
      | nil => simp [scanHeadings, hm, flattenScan]
      | cons c cs2 =>
        have hrec := scanHeadings_reconstruct fuel false cs2
        simp only [scanHeadings, hm, List.cons_append]
        rw [hrec]

theorem scanHeadings_grp_digit :
    ∀ (fuel : Nat) (a : Bool) (cs : List Char) (m : List Char × List Char × List Char),
      m ∈ (scanHeadings fuel a cs).2 → ∃ d t2, m.2.1 = d :: t2 ∧ d.isDigit = true
  | 0, _, cs, m, hm => by simp [scanHeadings] at hm
  | fuel+1, a, cs, m, hm => by
    cases h : tryHeading a cs with
    | some sgr =>
      obtain ⟨s, g, r⟩ := sgr
      simp only [scanHeadings, h] at hm
      rcases List.mem_cons.mp hm with h2 | h2
      · rw [h2]
        exact (tryHeading_eq h).2
      · exact scanHeadings_grp_digit fuel false r m h2
    | none =>
      cases cs with
      | nil => simp [scanHeadings, h] at hm
      | cons c cs2 =>
        simp only [scanHeadings, h] at hm
        exact scanHeadings_grp_digit fuel false cs2 m hm

theorem stripPy_ne_nil {p : Char → Bool} {l : List Char} (x : Char) (hx : x ∈ l)
    (hpx : p x = false) : stripPy p l ≠ [] := by
  intro hcon
  unfold stripPy at hcon
  have h1 : (l.dropWhile p).reverse.dropWhile p = [] := List.reverse_eq_nil_iff.mp hcon
  have h2 : ∀ y ∈ (l.dropWhile p).reverse, p y := List.dropWhile_eq_nil_iff.mp h1
  have h3 : ∀ y ∈ l.dropWhile p, p y := fun y hy => h2 y (List.mem_reverse.mpr hy)
  have h4 : ∀ y ∈ l.takeWhile p, p y := fun y hy => List.mem_takeWhile_imp hy
  have h5 : p x = true := by
    have hsplit : l.takeWhile p ++ l.dropWhile p = l := List.takeWhile_append_dropWhile p l
    rw [← hsplit] at hx
    rcases List.mem_append.mp hx with hx2 | hx2
    · exact h4 x hx2
    · exact h3 x hx2
  rw [hpx] at h5
  exact Bool.false_ne_true h5

theorem digit_not_colonSpace {d : Char} (hd : d.isDigit = true) : isColonSpace d = false := by
  unfold isColonSpace
  have h1 : (d == ':') = false := by
    cases hb : d == ':' with
    | false => rfl
    | true =>
      exfalso
      have hde : d = ':' := eq_of_beq hb
      rw [hde] at hd
      exact absurd hd (by decide)
  have h2 : (d == ' ') = false := by
    cases hb : d == ' ' with
    | false => rfl
    | true =>
      exfalso
      have hde : d = ' ' := eq_of_beq hb
      rw [hde] at hd
      exact absurd hd (by decide)
  rw [h1, h2]
  rfl

/-- C1: extract_clauses never returns the empty list, and when no heading
matches the pattern the result is exactly one General Clause carrying the
whole whitespace-collapsed input. -/
theorem extract_clauses_nonempty (t : List Char) :
    extract_clauses t ≠ [] ∧
    ((headScan (collapseWs t)).2 = [] →
      extract_clauses t = [Clause.mk "General Clause".toList (collapseWs t)]) := by
  constructor
  · unfold extract_clauses
    split_ifs with h
    · simp
    · intro hcon
      apply h
      rw [hcon]
      rfl
  · intro hms
    unfold extract_clauses
    rw [hms]
    simp

/-- Witness for C1 at a concrete heading-free text. -/
theorem extract_clauses_nonempty_witness :
    extract_clauses "hello world".toList ≠ [] ∧
    extract_clauses "hello world".toList =
      [Clause.mk "General Clause".toList (collapseWs "hello world".toList)] :=
  ⟨(extract_clauses_nonempty "hello world".toList).1,
   (extract_clauses_nonempty "hello world".toList).2 (by decide)⟩

/-- C4 counterexample: on a text with a preamble and one heading the
concatenated clause bodies drop the preamble and the heading, so they do not
reconstruct the input even up to whitespace normalization. -/
theorem extract_clauses_bodies_lossy :
    joinBodies (extract_clauses "intro 1. Pay: body".toList) = "body".toList ∧
    collapseWs "intro 1. Pay: body".toList = "intro 1. Pay: body".toList ∧
    collapseWs (joinBodies (extract_clauses "intro 1. Pay: body".toList)) ≠
      collapseWs "intro 1. Pay: body".toList := by decide

/-- C4 amended: the heading split underlying extract_clauses is lossless once
the dropped pieces are kept: the preamble, the separators consumed by the
matches, the captured headings and the raw bodies concatenate back to the
whitespace-collapsed input exactly; the clause bodies alone do not. -/
theorem headScan_reconstruct (t : List Char) :
    (headScan (collapseWs t)).1 ++ flattenScan (headScan (collapseWs t)).2 =
      collapseWs t :=
  scanHeadings_reconstruct (collapseWs t).length true (collapseWs t)

/-- C5 counterexample: a heading at the very end of the input yields a clause
whose text is empty. -/
theorem extract_clauses_empty_text :
    extract_clauses "1. Termination:".toList =
      [Clause.mk "1. Termination".toList []] := by decide

/-- C5 amended: every clause produced by extract_clauses has a non-empty
title; the text field may be empty, as the counterexample shows. -/
theorem extract_clauses_title_ne_nil (t : List Char) (c : Clause)
    (hc : c ∈ extract_clauses t) : c.title ≠ [] := by
  unfold extract_clauses at hc
  split_ifs at hc with h
  · simp only [List.mem_singleton] at hc
    rw [hc]
    show "General Clause".toList ≠ []
    decide
  · rcases List.mem_map.mp hc with ⟨m, hmem, hmc⟩
    unfold headScan at hmem
    obtain ⟨d, t2, hg, hd⟩ :=
      scanHeadings_grp_digit (collapseWs t).length true (collapseWs t) m hmem
    rw [← hmc]
    show stripPy isColonSpace m.2.1 ≠ []
    rw [hg]
    exact stripPy_ne_nil d (List.mem_cons_self d t2) (digit_not_colonSpace hd)

/-- Witness for C5 amended at a concrete text. -/
theorem extract_clauses_title_ne_nil_witness :
    (Clause.mk "General Clause".toList "x".toList).title ≠ [] :=
  extract_clauses_title_ne_nil "x".toList
    (Clause.mk "General Clause".toList "x".toList) (by decide)

/-- C2: evaluation of extract_entities at the input of the claim. Dates and
Jurisdiction agree with the claim, but the Amounts set is the captured
currency marker Rs. alone: re.findall on a pattern with one capturing group
returns the group captures, not the literal matched substring Rs. 5,000. -/
theorem extract_entities_eval :
    extract_entities "Paid Rs. 5,000 on 12/04/2023 in Mumbai".toList =
      ⟨[], ["12/04/2023".toList], ["Rs.".toList], ["Mumbai".toList]⟩ := by decide

end ContractAnalyzer
